import Mathlib

/-!
Verification of metal_strings.h: the null-terminated string primitives

Shallow embedding of `metal::strings` from `src/string/runner/metal_strings.h`.

* A `char` value is an integer (`Int`); comparisons of `char`s in the source are the
  integer comparisons of their values, whichever signedness the platform gives `char`.
* A pointer is an address (`Nat`), `nullptr` being address `0`; `p + 1` is `p++`.
* Device memory is a total map from addresses to bytes (`Mem`); a store is `write`.
  The model has no bounds: the capacity a caller owes appears as the region that the
  theorems require to be disjoint from the source.
* A `while` loop becomes a recursive function with a fuel argument that counts the
  evaluations of the loop condition; running out of fuel is `none`.
-/

namespace metal

namespace memory

/-- Memory of one invocation's view, one map per address space: the elements of type `T`
held in `device` memory and in `threadgroup` memory, addressed in units of `T`. -/
structure GpuMemory (T : Type) where
  device : Nat → T
  threadgroup : Nat → T

/-- Pointer of type `device T*`: an element address in device memory. -/
structure DevicePtr where
  addr : Nat
deriving DecidableEq

/-- Pointer of type `threadgroup T*`: an element address in threadgroup memory. -/
structure ThreadgroupPtr where
  addr : Nat
deriving DecidableEq

/-- Function `memcpyThreadgroupDevice`, four-argument form (lines 29-33), with the parameter
types of line 30: `device T* destination` and `const device T* source`. The statement
`destination[destIndex] = source[sourceIndex]` loads from device memory and stores to device
memory; the barrier that follows changes no memory of the calling invocation.

The three-argument overload (lines 35-38) takes `const threadgroup T* source` and passes it
to this form, whose parameter is a `device` pointer: that call has no typing, here as in the
source, so the overload has no embedding. -/
def memcpyThreadgroupDevice {T : Type} (m : GpuMemory T) (destination : DevicePtr)
    (source : DevicePtr) (destIndex sourceIndex : Nat) : GpuMemory T :=
  { m with device := fun q =>
      if q = destination.addr + destIndex then m.device (source.addr + sourceIndex)
      else m.device q }

/-- Function `memcpyDeviceThreadgroup`, four-argument form (lines 40-44), the sibling in the
other direction: `threadgroup T* destination`, `const device T* source`. -/
def memcpyDeviceThreadgroup {T : Type} (m : GpuMemory T) (destination : ThreadgroupPtr)
    (source : DevicePtr) (destIndex sourceIndex : Nat) : GpuMemory T :=
  { m with threadgroup := fun q =>
      if q = destination.addr + destIndex then m.device (source.addr + sourceIndex)
      else m.threadgroup q }

/-- Memory whose device buffer at address 0 holds `10, 20` and whose threadgroup buffer at
address 0 holds `30, 40`. -/
def gpuMemExample : GpuMemory Int :=
  { device := fun q => [10, 20].getD q 0, threadgroup := fun q => [30, 40].getD q 0 }

end memory

namespace strings

/-- Device memory: the `char` value (an `Int`) stored at each address (a `Nat`). -/
abbrev Mem := Nat → Int

/-- Constant `NULL_CHAR = '\0'` (line 66). -/
def NULL_CHAR : Int := 0

/-- Store `*p = c`. -/
def write (mem : Mem) (p : Nat) (c : Int) : Mem :=
  fun q => if q = p then c else mem q

/-- Memory whose bytes from address `0` on are those of `l` (zero elsewhere); used for
concrete inputs. -/
def memOfList (l : List Int) : Mem :=
  fun p => l.getD p 0

/-- The bytes of `mem` at `p, p+1, ..., p+n-1`. -/
def readBytes (mem : Mem) : Nat → Nat → List Int
  | _, 0 => []
  | p, n + 1 => mem p :: readBytes mem (p + 1) n

/-- Memory after storing the bytes of `l` at `d, d+1, ...`, in that order. -/
def writeBytes : Mem → Nat → List Int → Mem
  | mem, _, [] => mem
  | mem, d, c :: cs => writeBytes (write mem d c) (d + 1) cs

/-- Predicate `IsCStr mem p s`: at address `p` the memory holds the null-terminated string
whose bytes before the first terminator are exactly `s`. -/
def IsCStr (mem : Mem) : Nat → List Int → Prop
  | p, [] => mem p = NULL_CHAR
  | p, c :: cs => mem p = c ∧ c ≠ NULL_CHAR ∧ IsCStr mem (p + 1) cs

instance instDecidableIsCStr (mem : Mem) : (p : Nat) → (s : List Int) → Decidable (IsCStr mem p s)
  | p, [] => inferInstanceAs (Decidable (mem p = NULL_CHAR))
  | p, c :: cs =>
    have := instDecidableIsCStr mem (p + 1) cs
    inferInstanceAs (Decidable (mem p = c ∧ c ≠ NULL_CHAR ∧ IsCStr mem (p + 1) cs))

/-- Function `strcmp` (lines 68-90). `currChar1`, `currChar2` are the two cursors; one unit of
fuel is spent per evaluation of the loop condition of line 72. When the condition fails the
three-way test of lines 83-89 gives the result. -/
def strcmp : Nat → Mem → Nat → Nat → Option Int
  | 0, _, _, _ => none
  | fuel + 1, mem, currChar1, currChar2 =>
    if currChar1 ≠ 0 ∧ currChar2 ≠ 0 ∧ mem currChar1 ≠ NULL_CHAR ∧ mem currChar2 ≠ NULL_CHAR then
      if mem currChar1 > mem currChar2 then some 1
      else if mem currChar1 < mem currChar2 then some (-1)
      else strcmp fuel mem (currChar1 + 1) (currChar2 + 1)
    else if currChar1 ≠ 0 ∧ currChar2 ≠ 0 ∧ mem currChar1 = NULL_CHAR ∧ mem currChar2 = NULL_CHAR then
      some 0
    else if currChar1 ≠ 0 ∧ mem currChar1 = NULL_CHAR then some 1
    else some (-1)

/-- Loop of `strncpy` (lines 96-100): the first argument is the number of iterations left
(`num - i`); each one stores `*sourcePtr` at `*destinationCpy` and advances both. Returns the
memory and `destinationCpy` at loop exit. -/
def strncpyLoop : Nat → Mem → Nat → Nat → Mem × Nat
  | 0, mem, destinationCpy, _ => (mem, destinationCpy)
  | k + 1, mem, destinationCpy, sourcePtr =>
    strncpyLoop k (write mem destinationCpy (mem sourcePtr)) (destinationCpy + 1) (sourcePtr + 1)

/-- Function `strncpy` (lines 92-104): the loop, then `*destinationCpy = NULL_CHAR`, then
`return destination`. The result is the final memory and the returned pointer. -/
def strncpy (mem : Mem) (destination source : Nat) (num : Nat) : Mem × Nat :=
  let r := strncpyLoop num mem destination source
  (write r.1 r.2 NULL_CHAR, destination)

/-- Loop of `strcpy` (lines 110-114), one unit of fuel per evaluation of its condition.
Returns the memory and `destinationCpy` at loop exit. -/
def strcpyLoop : Nat → Mem → Nat → Nat → Option (Mem × Nat)
  | 0, _, _, _ => none
  | fuel + 1, mem, destinationCpy, sourcePtr =>
    if sourcePtr ≠ 0 ∧ mem sourcePtr ≠ NULL_CHAR then
      strcpyLoop fuel (write mem destinationCpy (mem sourcePtr)) (destinationCpy + 1) (sourcePtr + 1)
    else some (mem, destinationCpy)

/-- Function `strcpy` (lines 106-118): the loop, then `*destinationCpy = NULL_CHAR`, then
`return destination`. -/
def strcpy (fuel : Nat) (mem : Mem) (destination source : Nat) : Option (Mem × Nat) :=
  match strcpyLoop fuel mem destination source with
  | none => none
  | some r => some (write r.1 r.2 NULL_CHAR, destination)

/-- Scan `while (endOfDest && *endOfDest++ != NULL_CHAR) {}` (lines 124 and 134). A null
cursor ends the scan without being advanced (short-circuit); otherwise the byte is read and the
cursor is advanced by the post-increment before the comparison decides whether to go on.
Returns `endOfDest` at loop exit. -/
def scanToEnd : Nat → Mem → Nat → Option Nat
  | 0, _, _ => none
  | fuel + 1, mem, endOfDest =>
    if endOfDest ≠ 0 then
      if mem endOfDest ≠ NULL_CHAR then scanToEnd fuel mem (endOfDest + 1)
      else some (endOfDest + 1)
    else some endOfDest

/-- Function `strncat` (lines 120-128): `return strncpy(endOfDest, source, num)`. -/
def strncat (fuel : Nat) (mem : Mem) (destination source : Nat) (num : Nat) : Option (Mem × Nat) :=
  match scanToEnd fuel mem destination with
  | none => none
  | some endOfDest => some (strncpy mem endOfDest source num)

/-- Function `strcat` (lines 130-138): `return strcpy(endOfDest, source)`. -/
def strcat (fuel : Nat) (mem : Mem) (destination source : Nat) : Option (Mem × Nat) :=
  match scanToEnd fuel mem destination with
  | none => none
  | some endOfDest => strcpy fuel mem endOfDest source

/-- Function `strlen` loop (lines 143-145): the state is `(size, strPtr)`; the body is
`++size` on a `size_t` (64 bits) and leaves `strPtr` as it is. -/
def strlenLoop : Nat → Mem → Nat → Nat → Option Nat
  | 0, _, _, _ => none
  | fuel + 1, mem, size, strPtr =>
    if strPtr ≠ 0 ∧ mem strPtr ≠ NULL_CHAR then
      strlenLoop fuel mem ((size + 1) % 2 ^ 64) strPtr
    else some size

/-- Function `strlen` (lines 140-148). -/
def strlen (fuel : Nat) (mem : Mem) (str : Nat) : Option Nat :=
  strlenLoop fuel mem 0 str

/-- Comparison of the contents of two strings (the bytes before their terminators), by
cases as `strcmp` walks them: used to state what `strcmp` computes. -/
def cmpContents : List Int → List Int → Int
  | [], [] => 0
  | [], _ :: _ => 1
  | _ :: _, [] => -1
  | x :: xs, y :: ys => if x > y then 1 else if x < y then -1 else cmpContents xs ys

/-- Memory holding "abc" at address 1 and "abc" at address 5. -/
def memAbcAbc : Mem := memOfList [0, 97, 98, 99, 0, 97, 98, 99, 0]

/-- Memory holding "abc" at address 1 and "abcd" at address 5. -/
def memAbcAbcd : Mem := memOfList [0, 97, 98, 99, 0, 97, 98, 99, 100, 0]

/-- Memory holding "abd" at address 1 and "abcz" at address 5. -/
def memAbdAbcz : Mem := memOfList [0, 97, 98, 100, 0, 97, 98, 99, 122, 0]

/-- Memory with a 6-byte destination at address 1 and "hello" at address 7. -/
def memHello : Mem := memOfList [0, 7, 7, 7, 7, 7, 7, 104, 101, 108, 108, 111, 0]

/-- Memory with a 6-byte destination at address 1 and the five source bytes `h,i,0,x,y` at
address 7: a terminator lies inside the range that is copied. -/
def memHiXy : Mem := memOfList [0, 7, 7, 7, 7, 7, 7, 104, 105, 0, 120, 121]

/-- Memory with the destination buffer at addresses 1..9, holding "foo" and its terminator,
and the source "bar" at address 10. -/
def memFooBar : Mem := memOfList [0, 102, 111, 111, 0, 7, 7, 7, 7, 7, 98, 97, 114, 0]

/-- Conversion of an `int` to `char` (line 151, `const char charToFind = character`), `char`
being the signed 8-bit type of the Metal language: the value is reduced modulo 256 into
`-128..127`. -/
def toChar (i : Int) : Int := (i + 128) % 256 - 128

/-- Loop of `strchr` (lines 153-157), one unit of fuel per evaluation of its condition. The
body compares `*strPtr` with `charToFind` and returns `strPtr` on equality; it leaves `strPtr`
as it is. The result of the function is a pointer, `0` being `nullptr` (line 159). -/
def strchrLoop : Nat → Mem → Int → Nat → Option Nat
  | 0, _, _, _ => none
  | fuel + 1, mem, charToFind, strPtr =>
    if strPtr ≠ 0 ∧ mem strPtr ≠ NULL_CHAR then
      if mem strPtr = charToFind then some strPtr
      else strchrLoop fuel mem charToFind strPtr
    else some 0

/-- Function `strchr` (lines 150-160). -/
def strchr (fuel : Nat) (mem : Mem) (str : Nat) (character : Int) : Option Nat :=
  strchrLoop fuel mem (toChar character) str

/-- State `(size, strPtr)` of `strlen` after `k` passes through the body of its loop
(line 144), started from `(0, str)`. -/
def strlenState : Nat → Nat → Nat × Nat
  | 0, str => (0, str)
  | k + 1, str => (((strlenState k str).1 + 1) % 2 ^ 64, (strlenState k str).2)

/-- The bytes of a string up to and including its terminator, as letters of the alphabet in
which the terminator is the top element: a byte `x` is the letter `x`, the terminator is `⊤`.
Used to state the order that `strcmp` induces. -/
def lexKey (a : List Int) : List (WithTop Int) :=
  a.map (fun (x : Int) => (x : WithTop Int)) ++ [⊤]

/-- Memory holding "abc" at address 1, "abd" at address 5 and "b" at address 9. -/
def memAbcAbdB : Mem := memOfList [0, 97, 98, 99, 0, 97, 98, 100, 0, 98, 0]

/-- Memory with a 4-byte destination at address 1 and "hello" at address 7. -/
def memHelloShort : Mem := memOfList [0, 7, 7, 7, 7, 9, 9, 104, 101, 108, 108, 111, 0]

/-- Memory with an 8-byte destination at address 1 (its last two bytes hold `8`) and "hello"
at address 9. -/
def memHelloWide : Mem := memOfList [0, 7, 7, 7, 7, 7, 7, 8, 8, 104, 101, 108, 108, 111, 0]

/-! ## strcmp -/

theorem strcmp_eq_cmpContents (mem : Mem) (a : List Int) :
    ∀ (b : List Int) (str1 str2 : Nat) (fuel : Nat), str1 ≠ 0 → str2 ≠ 0 →
      IsCStr mem str1 a → IsCStr mem str2 b → min a.length b.length < fuel →
      strcmp fuel mem str1 str2 = some (cmpContents a b) := by
  induction a with
  | nil =>
    intro b str1 str2 fuel h1 h2 ha hb hf
    cases fuel with
    | zero => omega
    | succ fuel =>
      simp only [IsCStr] at ha
      cases b with
      | nil =>
        simp only [IsCStr] at hb
        simp [strcmp, cmpContents, ha, hb, h1, h2]
      | cons y ys =>
        obtain ⟨hy, hy0, -⟩ := hb
        have hm2 : mem str2 ≠ NULL_CHAR := by rw [hy]; exact hy0
        simp [strcmp, cmpContents, ha, hm2, h1]
  | cons x xs ih =>
    intro b str1 str2 fuel h1 h2 ha hb hf
    obtain ⟨hx, hx0, hxs⟩ := ha
    have hm1 : mem str1 ≠ NULL_CHAR := by rw [hx]; exact hx0
    cases fuel with
    | zero => omega
    | succ fuel =>
      cases b with
      | nil =>
        simp only [IsCStr] at hb
        simp [strcmp, cmpContents, hb, hm1]
      | cons y ys =>
        obtain ⟨hy, hy0, hys⟩ := hb
        have hm2 : mem str2 ≠ NULL_CHAR := by rw [hy]; exact hy0
        have hrec := ih ys (str1 + 1) (str2 + 1) fuel (Nat.succ_ne_zero _) (Nat.succ_ne_zero _)
          hxs hys (by simp only [List.length_cons] at hf; omega)
        have hc : str1 ≠ 0 ∧ str2 ≠ 0 ∧ mem str1 ≠ NULL_CHAR ∧ mem str2 ≠ NULL_CHAR :=
          ⟨h1, h2, hm1, hm2⟩
        rw [strcmp, if_pos hc, hrec, hx, hy]
        simp only [cmpContents]
        split_ifs <;> rfl

theorem cmpContents_eq_zero_iff (a : List Int) :
    ∀ b : List Int, cmpContents a b = 0 ↔ a = b := by
  induction a with
  | nil => intro b; cases b <;> simp [cmpContents]
  | cons x xs ih =>
    intro b
    cases b with
    | nil => simp [cmpContents]
    | cons y ys =>
      simp only [cmpContents, List.cons.injEq]
      split_ifs with h1 h2
      · constructor
        · intro h; omega
        · rintro ⟨rfl, -⟩; omega
      · constructor
        · intro h; exact absurd h (by decide)
        · rintro ⟨rfl, -⟩; exact absurd h2 (lt_irrefl _)
      · rw [ih ys]
        have : x = y := le_antisymm (not_lt.mp h1) (not_lt.mp h2)
        simp [this]

theorem cmpContents_prefix_left (a : List Int) :
    ∀ b : List Int, a <+: b → a.length < b.length → cmpContents a b = 1 := by
  induction a with
  | nil => intro b _ hl; cases b with
    | nil => simp at hl
    | cons y ys => rfl
  | cons x xs ih =>
    intro b hp hl
    cases b with
    | nil => simp at hl
    | cons y ys =>
      rw [List.cons_prefix_cons] at hp
      obtain ⟨rfl, hp⟩ := hp
      simp only [List.length_cons, Nat.add_lt_add_iff_right] at hl
      simp [cmpContents, ih ys hp hl]

theorem cmpContents_prefix_right (b : List Int) :
    ∀ a : List Int, b <+: a → b.length < a.length → cmpContents a b = -1 := by
  induction b with
  | nil => intro a _ hl; cases a with
    | nil => simp at hl
    | cons y ys => rfl
  | cons x xs ih =>
    intro a hp hl
    cases a with
    | nil => simp at hl
    | cons y ys =>
      rw [List.cons_prefix_cons] at hp
      obtain ⟨rfl, hp⟩ := hp
      simp only [List.length_cons, Nat.add_lt_add_iff_right] at hl
      simp [cmpContents, ih ys hp hl]

theorem strcmp_skip_equal (mem : Mem) :
    ∀ (i fuel : Nat) (str1 str2 : Nat), str1 ≠ 0 → str2 ≠ 0 →
      (∀ j < i, mem (str1 + j) = mem (str2 + j) ∧ mem (str1 + j) ≠ NULL_CHAR) →
      strcmp (fuel + i) mem str1 str2 = strcmp fuel mem (str1 + i) (str2 + i) := by
  intro i
  induction i with
  | zero => intro fuel str1 str2 _ _ _; rfl
  | succ i ih =>
    intro fuel str1 str2 h1 h2 hagree
    have h0 := hagree 0 (Nat.succ_pos i)
    simp only [Nat.add_zero] at h0
    have hc : str1 ≠ 0 ∧ str2 ≠ 0 ∧ mem str1 ≠ NULL_CHAR ∧ mem str2 ≠ NULL_CHAR :=
      ⟨h1, h2, h0.2, h0.1 ▸ h0.2⟩
    have hrec := ih fuel (str1 + 1) (str2 + 1) (Nat.succ_ne_zero _) (Nat.succ_ne_zero _)
      (fun j hj => by
        have := hagree (j + 1) (Nat.succ_lt_succ hj)
        rwa [show str1 + (j + 1) = str1 + 1 + j by omega,
          show str2 + (j + 1) = str2 + 1 + j by omega] at this)
    rw [show fuel + (i + 1) = (fuel + i) + 1 by omega, strcmp, if_pos hc,
      if_neg (by rw [h0.1]; exact lt_irrefl _), if_neg (by rw [h0.1]; exact lt_irrefl _), hrec,
      show str1 + 1 + i = str1 + (i + 1) by omega, show str2 + 1 + i = str2 + (i + 1) by omega]

theorem strcmp_at_difference (mem : Mem) (str1 str2 : Nat) (i fuel : Nat)
    (h1 : str1 ≠ 0) (h2 : str2 ≠ 0)
    (hagree : ∀ j < i, mem (str1 + j) = mem (str2 + j) ∧ mem (str1 + j) ≠ NULL_CHAR)
    (hn1 : mem (str1 + i) ≠ NULL_CHAR) (hn2 : mem (str2 + i) ≠ NULL_CHAR)
    (hdiff : mem (str1 + i) ≠ mem (str2 + i)) (hf : i < fuel) :
    strcmp fuel mem str1 str2 = some (if mem (str1 + i) > mem (str2 + i) then 1 else -1) := by
  obtain ⟨k, rfl⟩ : ∃ k, fuel = (k + 1) + i := ⟨fuel - i - 1, by omega⟩
  have hc : str1 + i ≠ 0 ∧ str2 + i ≠ 0 ∧ mem (str1 + i) ≠ NULL_CHAR ∧ mem (str2 + i) ≠ NULL_CHAR :=
    ⟨by omega, by omega, hn1, hn2⟩
  rw [strcmp_skip_equal mem i (k + 1) str1 str2 h1 h2 hagree, strcmp, if_pos hc]
  by_cases hgt : mem (str1 + i) > mem (str2 + i)
  · rw [if_pos hgt, if_pos hgt]
  · have hlt : mem (str1 + i) < mem (str2 + i) := lt_of_le_of_ne (not_lt.mp hgt) hdiff
    rw [if_neg hgt, if_pos hlt, if_neg hgt]

/-- C1: for null-terminated strings `a` at `str1` and `b` at `str2`, `strcmp` returns (with
fuel beyond the shorter length) a value that is `0` exactly when `a` and `b` hold the same
bytes up to their terminators. -/
theorem strcmp_eq_zero_iff (mem : Mem) (str1 str2 : Nat) (a b : List Int) (fuel : Nat)
    (h1 : str1 ≠ 0) (h2 : str2 ≠ 0) (ha : IsCStr mem str1 a) (hb : IsCStr mem str2 b)
    (hf : min a.length b.length < fuel) :
    ∃ r, strcmp fuel mem str1 str2 = some r ∧ (r = 0 ↔ a = b) :=
  ⟨cmpContents a b, strcmp_eq_cmpContents mem a b str1 str2 fuel h1 h2 ha hb hf,
    cmpContents_eq_zero_iff a b⟩

theorem strcmp_eq_zero_iff_witness :
    IsCStr memAbcAbc 1 [97, 98, 99] ∧ IsCStr memAbcAbc 5 [97, 98, 99] ∧
      strcmp 4 memAbcAbc 1 5 = some 0 ∧
      ∃ r, strcmp 4 memAbcAbc 1 5 = some r ∧ (r = 0 ↔ ([97, 98, 99] : List Int) = [97, 98, 99]) :=
  ⟨by decide, by decide, by decide,
    strcmp_eq_zero_iff memAbcAbc 1 5 [97, 98, 99] [97, 98, 99] 4 (by decide) (by decide)
      (by decide) (by decide) (by decide)⟩

/-- C2: when the string `a` at `str1` is a strict prefix of the string `b` at `str2`
(the empty `a` included), `strcmp` returns exactly `+1`. -/
theorem strcmp_prefix_first (mem : Mem) (str1 str2 : Nat) (a b : List Int) (fuel : Nat)
    (h1 : str1 ≠ 0) (h2 : str2 ≠ 0) (ha : IsCStr mem str1 a) (hb : IsCStr mem str2 b)
    (hpre : a <+: b) (hlen : a.length < b.length) (hf : a.length < fuel) :
    strcmp fuel mem str1 str2 = some 1 := by
  rw [strcmp_eq_cmpContents mem a b str1 str2 fuel h1 h2 ha hb (by omega),
    cmpContents_prefix_left a b hpre hlen]

theorem strcmp_prefix_first_witness :
    IsCStr memAbcAbcd 1 [97, 98, 99] ∧ IsCStr memAbcAbcd 5 [97, 98, 99, 100] ∧
      strcmp 4 memAbcAbcd 1 5 = some 1 :=
  ⟨by decide, by decide,
    strcmp_prefix_first memAbcAbcd 1 5 [97, 98, 99] [97, 98, 99, 100] 4 (by decide) (by decide)
      (by decide) (by decide) ⟨[100], rfl⟩ (by decide) (by decide)⟩

/-- C3: when the string `b` at `str2` is a strict prefix of the string `a` at `str1`
(the second string ends first), `strcmp` returns exactly `-1`. -/
theorem strcmp_prefix_second (mem : Mem) (str1 str2 : Nat) (a b : List Int) (fuel : Nat)
    (h1 : str1 ≠ 0) (h2 : str2 ≠ 0) (ha : IsCStr mem str1 a) (hb : IsCStr mem str2 b)
    (hpre : b <+: a) (hlen : b.length < a.length) (hf : b.length < fuel) :
    strcmp fuel mem str1 str2 = some (-1) := by
  rw [strcmp_eq_cmpContents mem a b str1 str2 fuel h1 h2 ha hb (by omega),
    cmpContents_prefix_right b a hpre hlen]

theorem strcmp_prefix_second_witness :
    IsCStr memAbcAbcd 5 [97, 98, 99, 100] ∧ IsCStr memAbcAbcd 1 [97, 98, 99] ∧
      strcmp 4 memAbcAbcd 5 1 = some (-1) :=
  ⟨by decide, by decide,
    strcmp_prefix_second memAbcAbcd 5 1 [97, 98, 99, 100] [97, 98, 99] 4 (by decide) (by decide)
      (by decide) (by decide) ⟨[100], rfl⟩ (by decide) (by decide)⟩

/-- C4: if the bytes at `str1` and `str2` agree and are not terminators before offset `i`,
and at offset `i` both are non-terminators and differ, then `strcmp` returns `+1` when the
byte of the first is greater and `-1` when it is less; any memory that agrees on the offsets
`0..i` of both strings gives the same result. -/
theorem strcmp_first_difference (mem : Mem) (str1 str2 : Nat) (i fuel : Nat)
    (h1 : str1 ≠ 0) (h2 : str2 ≠ 0)
    (hagree : ∀ j < i, mem (str1 + j) = mem (str2 + j) ∧ mem (str1 + j) ≠ NULL_CHAR)
    (hn1 : mem (str1 + i) ≠ NULL_CHAR) (hn2 : mem (str2 + i) ≠ NULL_CHAR)
    (hdiff : mem (str1 + i) ≠ mem (str2 + i)) (hf : i < fuel) :
    (mem (str1 + i) > mem (str2 + i) → strcmp fuel mem str1 str2 = some 1) ∧
    (mem (str1 + i) < mem (str2 + i) → strcmp fuel mem str1 str2 = some (-1)) ∧
    (∀ mem' : Mem,
      (∀ j ≤ i, mem' (str1 + j) = mem (str1 + j) ∧ mem' (str2 + j) = mem (str2 + j)) →
      strcmp fuel mem' str1 str2 = strcmp fuel mem str1 str2) := by
  have hval := strcmp_at_difference mem str1 str2 i fuel h1 h2 hagree hn1 hn2 hdiff hf
  refine ⟨fun hgt => by rw [hval, if_pos hgt], fun hlt => by rw [hval, if_neg (not_lt_of_gt hlt)],
    fun mem' hsame => ?_⟩
  have e1 := (hsame i le_rfl).1
  have e2 := (hsame i le_rfl).2
  have hval' := strcmp_at_difference mem' str1 str2 i fuel h1 h2
    (fun j hj => by
      rw [(hsame j (Nat.le_of_lt hj)).1, (hsame j (Nat.le_of_lt hj)).2]
      exact hagree j hj)
    (by rw [e1]; exact hn1) (by rw [e2]; exact hn2) (by rw [e1, e2]; exact hdiff) hf
  rw [hval', hval, e1, e2]

theorem strcmp_first_difference_witness :
    (memAbdAbcz (1 + 2) > memAbdAbcz (5 + 2) → strcmp 3 memAbdAbcz 1 5 = some 1) ∧
    (memAbdAbcz (1 + 2) < memAbdAbcz (5 + 2) → strcmp 3 memAbdAbcz 1 5 = some (-1)) ∧
    (∀ mem' : Mem,
      (∀ j ≤ 2, mem' (1 + j) = memAbdAbcz (1 + j) ∧ mem' (5 + j) = memAbdAbcz (5 + j)) →
      strcmp 3 mem' 1 5 = strcmp 3 memAbdAbcz 1 5) :=
  strcmp_first_difference memAbdAbcz 1 5 2 3 (by decide) (by decide) (by decide) (by decide)
    (by decide) (by decide) (by decide)

/-! ## Stores and reads -/

theorem write_same (mem : Mem) (p : Nat) (c : Int) : write mem p c p = c := by
  simp [write]

theorem write_other (mem : Mem) (p q : Nat) (c : Int) (h : q ≠ p) : write mem p c q = mem q := by
  simp [write, h]

theorem writeBytes_frame (l : List Int) :
    ∀ (mem : Mem) (d q : Nat), (q < d ∨ d + l.length ≤ q) → writeBytes mem d l q = mem q := by
  induction l with
  | nil => intro mem d q _; rfl
  | cons c cs ih =>
    intro mem d q hq
    simp only [List.length_cons] at hq
    rw [writeBytes, ih (write mem d c) (d + 1) q (by omega), write_other mem d q c (by omega)]

theorem writeBytes_at (l : List Int) :
    ∀ (mem : Mem) (d i : Nat), i < l.length → writeBytes mem d l (d + i) = l.getD i 0 := by
  induction l with
  | nil => intro mem d i hi; simp at hi
  | cons c cs ih =>
    intro mem d i hi
    cases i with
    | zero =>
      show writeBytes (write mem d c) (d + 1) cs d = c
      rw [writeBytes_frame cs _ (d + 1) d (Or.inl (Nat.lt_succ_self d)), write_same]
    | succ i =>
      simp only [List.length_cons, Nat.add_lt_add_iff_right] at hi
      rw [writeBytes, show d + (i + 1) = d + 1 + i by omega, ih _ _ _ hi]
      rfl

theorem readBytes_length (mem : Mem) (n : Nat) : ∀ p, (readBytes mem p n).length = n := by
  induction n with
  | zero => intro p; rfl
  | succ n ih => intro p; simp [readBytes, ih]

theorem readBytes_getD (mem : Mem) (n : Nat) :
    ∀ (p i : Nat), i < n → (readBytes mem p n).getD i 0 = mem (p + i) := by
  induction n with
  | zero => intro p i hi; omega
  | succ n ih =>
    intro p i hi
    cases i with
    | zero => rfl
    | succ i =>
      rw [readBytes, List.getD_cons_succ, ih (p + 1) i (by omega),
        show p + 1 + i = p + (i + 1) by omega]

theorem readBytes_write (mem : Mem) (q : Nat) (c : Int) (n : Nat) :
    ∀ p, (∀ j < n, q ≠ p + j) → readBytes (write mem q c) p n = readBytes mem p n := by
  induction n with
  | zero => intro p _; rfl
  | succ n ih =>
    intro p h
    have h0 := h 0 (Nat.succ_pos n)
    rw [readBytes, readBytes, write_other mem q p c (by omega),
      ih (p + 1) (fun j hj => by have := h (j + 1) (by omega); omega)]

theorem IsCStr_terminator (mem : Mem) (l : List Int) :
    ∀ p, IsCStr mem p l → mem (p + l.length) = NULL_CHAR := by
  induction l with
  | nil => intro p h; exact h
  | cons c cs ih =>
    intro p h
    have := ih (p + 1) h.2.2
    rwa [show p + 1 + cs.length = p + (c :: cs).length by simp only [List.length_cons]; omega]
      at this

theorem IsCStr_at (mem : Mem) (l : List Int) :
    ∀ (p i : Nat), IsCStr mem p l → i < l.length →
      mem (p + i) = l.getD i 0 ∧ mem (p + i) ≠ NULL_CHAR := by
  induction l with
  | nil => intro p i _ hi; simp at hi
  | cons c cs ih =>
    intro p i h hi
    cases i with
    | zero => exact ⟨h.1, by rw [Nat.add_zero, h.1]; exact h.2.1⟩
    | succ i =>
      simp only [List.length_cons, Nat.add_lt_add_iff_right] at hi
      have := ih (p + 1) i h.2.2 hi
      rwa [show p + 1 + i = p + (i + 1) by omega] at this

theorem IsCStr_write (mem : Mem) (q : Nat) (c : Int) (l : List Int) :
    ∀ p, IsCStr mem p l → (∀ j ≤ l.length, q ≠ p + j) → IsCStr (write mem q c) p l := by
  induction l with
  | nil =>
    intro p h hq
    have := hq 0 (Nat.le_refl _)
    show write mem q c p = NULL_CHAR
    rw [write_other mem q p c (by omega)]
    exact h
  | cons x xs ih =>
    intro p h hq
    have h0 := hq 0 (Nat.zero_le _)
    refine ⟨?_, h.2.1, ih (p + 1) h.2.2 (fun j hj => ?_)⟩
    · rw [write_other mem q p c (by omega)]; exact h.1
    · have := hq (j + 1) (by simp only [List.length_cons]; omega)
      omega

theorem IsCStr_of_bytes (mem : Mem) (l : List Int) :
    ∀ p, (∀ i < l.length, mem (p + i) = l.getD i 0) → (∀ x ∈ l, x ≠ NULL_CHAR) →
      mem (p + l.length) = NULL_CHAR → IsCStr mem p l := by
  induction l with
  | nil => intro p _ _ h; exact h
  | cons c cs ih =>
    intro p hb hnz ht
    refine ⟨hb 0 (by simp), hnz c (by simp), ih (p + 1) (fun i hi => ?_) (fun x hx => ?_) ?_⟩
    · have := hb (i + 1) (by simp only [List.length_cons]; omega)
      rwa [show p + (i + 1) = p + 1 + i by omega] at this
    · exact hnz x (List.mem_cons_of_mem c hx)
    · rwa [show p + (c :: cs).length = p + 1 + cs.length by
        simp only [List.length_cons]; omega] at ht

theorem IsCStr_ne_null (mem : Mem) (l : List Int) :
    ∀ p, IsCStr mem p l → ∀ x ∈ l, x ≠ NULL_CHAR := by
  induction l with
  | nil => intro p _ x hx; simp at hx
  | cons c cs ih =>
    intro p h x hx
    rcases List.mem_cons.mp hx with rfl | hx
    · exact h.2.1
    · exact ih (p + 1) h.2.2 x hx

/-! ## strcpy and strncpy -/

theorem strcpyLoop_eq (l : List Int) :
    ∀ (mem : Mem) (d s fuel : Nat), s ≠ 0 → IsCStr mem s l →
      (∀ i < l.length, ∀ j ≤ l.length, d + i ≠ s + j) → l.length < fuel →
      strcpyLoop fuel mem d s = some (writeBytes mem d l, d + l.length) := by
  induction l with
  | nil =>
    intro mem d s fuel _ hl _ hf
    cases fuel with
    | zero => simp at hf
    | succ fuel =>
      have hl0 : mem s = NULL_CHAR := hl
      simp [strcpyLoop, hl0, writeBytes]
  | cons c cs ih =>
    intro mem d s fuel hs hl hdisj hf
    cases fuel with
    | zero => simp at hf
    | succ fuel =>
      simp only [List.length_cons] at hdisj hf
      have hc : s ≠ 0 ∧ mem s ≠ NULL_CHAR := ⟨hs, by rw [hl.1]; exact hl.2.1⟩
      have hstr : IsCStr (write mem d (mem s)) (s + 1) cs :=
        IsCStr_write mem d (mem s) cs (s + 1) hl.2.2
          (fun j hj => by have := hdisj 0 (by omega) (j + 1) (by omega); omega)
      have hrec := ih (write mem d (mem s)) (d + 1) (s + 1) fuel (Nat.succ_ne_zero _) hstr
        (fun i hi j hj => by have := hdisj (i + 1) (by omega) (j + 1) (by omega); omega)
        (by omega)
      rw [strcpyLoop, if_pos hc, hrec, hl.1, writeBytes, List.length_cons,
        show d + 1 + cs.length = d + (cs.length + 1) by omega]

theorem strncpyLoop_eq (k : Nat) :
    ∀ (mem : Mem) (d s : Nat), (∀ i < k, ∀ j < k, d + i ≠ s + j) →
      strncpyLoop k mem d s = (writeBytes mem d (readBytes mem s k), d + k) := by
  induction k with
  | zero => intro mem d s _; rfl
  | succ k ih =>
    intro mem d s hdisj
    have hrec := ih (write mem d (mem s)) (d + 1) (s + 1)
      (fun i hi j hj => by have := hdisj (i + 1) (by omega) (j + 1) (by omega); omega)
    have hread : readBytes (write mem d (mem s)) (s + 1) k = readBytes mem (s + 1) k :=
      readBytes_write mem d (mem s) k (s + 1)
        (fun j hj => by have := hdisj 0 (by omega) (j + 1) (by omega); omega)
    rw [strncpyLoop, hrec, hread, readBytes, writeBytes,
      show d + 1 + k = d + (k + 1) by omega]

/-- C5: for a null-terminated source `s` of length `n` at `source` and a destination whose
`n + 1` bytes do not overlap it, `strcpy` returns, and afterwards the destination equals the
source on the offsets `0..n`, terminator included: it holds the string `s`. -/
theorem strcpy_copies_string (mem : Mem) (destination source : Nat) (s : List Int) (fuel : Nat)
    (hsrc : source ≠ 0) (hs : IsCStr mem source s)
    (hdisj : ∀ i ≤ s.length, ∀ j ≤ s.length, destination + i ≠ source + j)
    (hf : s.length < fuel) :
    ∃ mem', strcpy fuel mem destination source = some (mem', destination) ∧
      (∀ i ≤ s.length, mem' (destination + i) = mem (source + i)) ∧
      IsCStr mem' destination s := by
  have hloop := strcpyLoop_eq s mem destination source fuel hsrc hs
    (fun i hi j hj => hdisj i (Nat.le_of_lt hi) j hj) hf
  have hbytes : ∀ i < s.length,
      write (writeBytes mem destination s) (destination + s.length) NULL_CHAR (destination + i)
        = s.getD i 0 := fun i hi => by
    rw [write_other _ _ _ _ (by omega), writeBytes_at s mem destination i hi]
  refine ⟨write (writeBytes mem destination s) (destination + s.length) NULL_CHAR, ?_, ?_, ?_⟩
  · simp only [strcpy, hloop]
  · intro i hi
    rcases Nat.lt_or_eq_of_le hi with hlt | rfl
    · rw [hbytes i hlt, (IsCStr_at mem s source i hs hlt).1]
    · rw [write_same, IsCStr_terminator mem s source hs]
  · exact IsCStr_of_bytes _ s destination hbytes (IsCStr_ne_null mem s source hs)
      (write_same _ _ _)

theorem strcpy_copies_string_witness :
    IsCStr memHello 7 [104, 101, 108, 108, 111] ∧
      (strcpy 6 memHello 1 7).map (fun r => readBytes r.1 1 6)
        = some [104, 101, 108, 108, 111, 0] ∧
      ∃ mem', strcpy 6 memHello 1 7 = some (mem', 1) ∧
        (∀ i ≤ 5, mem' (1 + i) = memHello (7 + i)) ∧
        IsCStr mem' 1 [104, 101, 108, 108, 111] :=
  ⟨by decide, by decide,
    strcpy_copies_string memHello 1 7 [104, 101, 108, 108, 111] 6 (by decide) (by decide)
      (by decide) (by decide)⟩

/-- C6: for a destination whose `num + 1` bytes do not overlap the `num` source bytes,
`strncpy` sets `dest[i] = src[i]` for every `i < num`, whatever those bytes are (terminators
included), and `dest[num] = 0`; with `num = 0` its only store is the terminator at offset 0. -/
theorem strncpy_copies_num (mem : Mem) (destination source num : Nat)
    (hdisj : ∀ i ≤ num, ∀ j < num, destination + i ≠ source + j) :
    (∀ i < num, (strncpy mem destination source num).1 (destination + i) = mem (source + i)) ∧
    (strncpy mem destination source num).1 (destination + num) = NULL_CHAR ∧
    strncpy mem destination source 0 = (write mem destination NULL_CHAR, destination) := by
  have hloop := strncpyLoop_eq num mem destination source
    (fun i hi j hj => hdisj i (Nat.le_of_lt hi) j hj)
  refine ⟨fun i hi => ?_, ?_, rfl⟩
  · simp only [strncpy, hloop]
    rw [write_other _ _ _ _ (by omega),
      writeBytes_at _ mem destination i (by rw [readBytes_length]; exact hi),
      readBytes_getD mem num source i hi]
  · simp only [strncpy, hloop]
    exact write_same _ _ _

theorem strncpy_copies_num_witness :
    readBytes (strncpy memHiXy 1 7 5).1 1 6 = [104, 105, 0, 120, 121, 0] ∧
    (∀ i < 5, (strncpy memHiXy 1 7 5).1 (1 + i) = memHiXy (7 + i)) ∧
    (strncpy memHiXy 1 7 5).1 (1 + 5) = NULL_CHAR ∧
    strncpy memHiXy 1 7 0 = (write memHiXy 1 NULL_CHAR, 1) :=
  ⟨by decide, strncpy_copies_num memHiXy 1 7 5 (by decide)⟩

/-! ## strcat, strncat and strlen -/

theorem strlenLoop_stuck (mem : Mem) (strPtr : Nat) (h : strPtr ≠ 0 ∧ mem strPtr ≠ NULL_CHAR) :
    ∀ (fuel size : Nat), strlenLoop fuel mem size strPtr = none := by
  intro fuel
  induction fuel with
  | zero => intro size; rfl
  | succ fuel ih => intro size; rw [strlenLoop, if_pos h, ih]

/-- C7: on `dest = "foo\0"` (address 1) and `src = "bar"` (address 10) `strcat` returns and
leaves `f,o,o,0x00,b,a,r,0x00` at `dest`: the terminator of "foo" stays at offset 3 and the copy
starts at offset 4, so the first seven bytes are not `f,o,o,b,a,r,0x00`. -/
theorem strcat_foo_bar_bytes :
    (strcat 8 memFooBar 1 10).map (fun r => readBytes r.1 1 8)
        = some [102, 111, 111, 0, 98, 97, 114, 0] ∧
      (strcat 8 memFooBar 1 10).map (fun r => readBytes r.1 1 7)
        ≠ some [102, 111, 111, 98, 97, 114, 0] := by
  decide

/-- C8: on `dest = "foo\0"` (address 1), `src = "bar"` (address 10) and `num = 3`, `strncat`
leaves `f,o,o,0x00,b,a,r,0x00` at `dest`: the bounded copy starts at offset 4, one past the
terminator of "foo", and the byte at offset `n + num = 6` is `r`, not the terminator. -/
theorem strncat_foo_bar_bytes :
    (strncat 8 memFooBar 1 10 3).map (fun r => readBytes r.1 1 8)
        = some [102, 111, 111, 0, 98, 97, 114, 0] ∧
      (strncat 8 memFooBar 1 10 3).map (fun r => r.1 (1 + 6)) = some 114 := by
  decide

/-- C9: on `dest = "foo\0"` at address 1 and `src = "bar"`, `strcat` returns address 5
(offset 4 of `dest`, where the copy began), not the address 1 it was given. -/
theorem strcat_foo_bar_returns :
    (strcat 8 memFooBar 1 10).map (fun r => r.2) = some 5 ∧
      (strcat 8 memFooBar 1 10).map (fun r => r.2) ≠ some 1 := by
  decide

/-- C10: on the string "hello" (address 7 of `memHello`) `strlen` never returns, whatever the
number of loop iterations allowed; it does not return 5. -/
theorem strlen_hello_no_result : ∀ fuel : Nat, strlen fuel memHello 7 = none :=
  fun fuel => strlenLoop_stuck memHello 7 (by decide) fuel 0

/-! ## strchr and the states of strlen -/

theorem strchrLoop_stuck (mem : Mem) (strPtr : Nat) (charToFind : Int)
    (h : strPtr ≠ 0 ∧ mem strPtr ≠ NULL_CHAR) (hne : mem strPtr ≠ charToFind) :
    ∀ fuel : Nat, strchrLoop fuel mem charToFind strPtr = none := by
  intro fuel
  induction fuel with
  | zero => rfl
  | succ fuel ih => rw [strchrLoop, if_pos h, if_neg hne, ih]

theorem strchrLoop_found (mem : Mem) (strPtr : Nat) (charToFind : Int)
    (h : strPtr ≠ 0 ∧ mem strPtr ≠ NULL_CHAR) (heq : mem strPtr = charToFind) (fuel : Nat) :
    strchrLoop (fuel + 1) mem charToFind strPtr = some strPtr := by
  rw [strchrLoop, if_pos h, if_pos heq]

theorem strchrLoop_end (mem : Mem) (strPtr : Nat) (charToFind : Int)
    (h : ¬(strPtr ≠ 0 ∧ mem strPtr ≠ NULL_CHAR)) (fuel : Nat) :
    strchrLoop (fuel + 1) mem charToFind strPtr = some 0 := by
  rw [strchrLoop, if_neg h]

theorem toChar_of_range (c : Int) (hlo : -128 ≤ c) (hhi : c ≤ 127) : toChar c = c := by
  unfold toChar
  omega

theorem strlenState_eq (str : Nat) : ∀ k : Nat, strlenState k str = (k % 2 ^ 64, str) := by
  intro k
  induction k with
  | zero => rfl
  | succ k ih =>
    rw [strlenState, ih]
    simp only [Prod.mk.injEq, and_true]
    omega

theorem strlenLoop_run (mem : Mem) (strPtr : Nat) (h : strPtr ≠ 0 ∧ mem strPtr ≠ NULL_CHAR)
    (fuel : Nat) : ∀ (k size : Nat),
      strlenLoop (fuel + k) mem (size % 2 ^ 64) strPtr
        = strlenLoop fuel mem ((size + k) % 2 ^ 64) strPtr := by
  intro k
  induction k with
  | zero => intro size; rfl
  | succ k ih =>
    intro size
    rw [show fuel + (k + 1) = (fuel + k) + 1 by omega, strlenLoop, if_pos h,
      show (size % 2 ^ 64 + 1) % 2 ^ 64 = (size + 1) % 2 ^ 64 by omega, ih (size + 1),
      show size + 1 + k = size + (k + 1) by omega]

theorem strlenLoop_end (mem : Mem) (strPtr : Nat) (h : ¬(strPtr ≠ 0 ∧ mem strPtr ≠ NULL_CHAR))
    (fuel size : Nat) : strlenLoop (fuel + 1) mem size strPtr = some size := by
  rw [strlenLoop, if_neg h]

/-- C11: on the string "hello" (address 7 of `memHello`) `strchr` never returns when asked
for `l` (code 108), which occurs at offset 2, nor when asked for `z` (code 122), which does not
occur: it gives neither the pointer to the first occurrence nor the null result. -/
theorem strchr_hello_no_result :
    ∀ fuel : Nat, strchr fuel memHello 7 108 = none ∧ strchr fuel memHello 7 122 = none :=
  fun fuel =>
    ⟨strchrLoop_stuck memHello 7 (toChar 108) (by decide) (by decide) fuel,
      strchrLoop_stuck memHello 7 (toChar 122) (by decide) (by decide) fuel⟩

/-- C14: for a string at `str` whose first byte is not the terminator, after any number `k`
of passes through the loop body the cursor is still `str`, the loop condition still holds and
the counter holds `k` (as a 64-bit `size_t`), the loop goes on from that state, and `strlen`
returns for no amount of fuel; `strlen` returns only when the first byte is the terminator,
and then returns `0`. -/
theorem strlen_never_advances (mem : Mem) (str : Nat) (hstr : str ≠ 0) :
    (mem str ≠ NULL_CHAR →
      (∀ k : Nat,
        (strlenState k str).2 = str ∧ (strlenState k str).1 = k % 2 ^ 64 ∧
        ((strlenState k str).2 ≠ 0 ∧ mem (strlenState k str).2 ≠ NULL_CHAR) ∧
        ∀ fuel : Nat, strlenLoop (fuel + k) mem 0 str
          = strlenLoop fuel mem (strlenState k str).1 (strlenState k str).2) ∧
      ∀ fuel : Nat, strlen fuel mem str = none) ∧
    (∀ fuel r : Nat, strlen fuel mem str = some r → mem str = NULL_CHAR ∧ r = 0) ∧
    (mem str = NULL_CHAR → ∀ fuel : Nat, 0 < fuel → strlen fuel mem str = some 0) := by
  refine ⟨fun hne => ⟨fun k => ?_, fun fuel => strlenLoop_stuck mem str ⟨hstr, hne⟩ fuel 0⟩,
    fun fuel r hr => ?_, fun h0 fuel hf => ?_⟩
  · rw [strlenState_eq]
    refine ⟨rfl, rfl, ⟨hstr, hne⟩, fun fuel => ?_⟩
    have := strlenLoop_run mem str ⟨hstr, hne⟩ fuel k 0
    simpa using this
  · by_cases h0 : mem str = NULL_CHAR
    · cases fuel with
      | zero => simp [strlen, strlenLoop] at hr
      | succ fuel =>
        have hend := strlenLoop_end mem str (fun h => h.2 h0) fuel 0
        rw [strlen, hend] at hr
        exact ⟨h0, (Option.some.inj hr).symm⟩
    · rw [strlen, strlenLoop_stuck mem str ⟨hstr, h0⟩ fuel 0] at hr
      exact absurd hr (by simp)
  · obtain ⟨f, rfl⟩ : ∃ f, fuel = f + 1 := ⟨fuel - 1, by omega⟩
    exact strlenLoop_end mem str (fun h => h.2 h0) f 0

theorem strlen_never_advances_witness :
    (∀ k : Nat,
      (strlenState k 7).2 = 7 ∧ (strlenState k 7).1 = k % 2 ^ 64 ∧
      ((strlenState k 7).2 ≠ 0 ∧ memHello (strlenState k 7).2 ≠ NULL_CHAR) ∧
      ∀ fuel : Nat, strlenLoop (fuel + k) memHello 0 7
        = strlenLoop fuel memHello (strlenState k 7).1 (strlenState k 7).2) ∧
    (∀ fuel : Nat, strlen fuel memHello 7 = none) ∧
    strlen 1 memHello 12 = some 0 :=
  ⟨((strlen_never_advances memHello 7 (by decide)).1 (by decide)).1,
    ((strlen_never_advances memHello 7 (by decide)).1 (by decide)).2,
    (strlen_never_advances memHello 12 (by decide)).2.2 (by decide) 1 (by decide)⟩

/-- C15: `strchr` looks at the first byte of `str` only. If that byte is the terminator the
result is null, whatever the character (`0` included); if it is a non-terminator equal to the
character (converted to `char`) the result is `str` itself; if it is neither, `strchr`
returns for no amount of fuel. Hence every non-null result is `str`, offset 0. -/
theorem strchr_first_byte_only (mem : Mem) (str : Nat) (character : Int) (hstr : str ≠ 0) :
    (mem str = NULL_CHAR → ∀ fuel : Nat, 0 < fuel → strchr fuel mem str character = some 0) ∧
    (mem str ≠ NULL_CHAR → mem str = toChar character →
      ∀ fuel : Nat, 0 < fuel → strchr fuel mem str character = some str) ∧
    (mem str ≠ NULL_CHAR → mem str ≠ toChar character →
      ∀ fuel : Nat, strchr fuel mem str character = none) ∧
    (∀ (fuel r : Nat), strchr fuel mem str character = some r → r ≠ 0 → r = str) ∧
    (-128 ≤ character → character ≤ 127 → toChar character = character) := by
  refine ⟨fun h0 fuel hf => ?_, fun hne heq fuel hf => ?_,
    fun hne hneq fuel => strchrLoop_stuck mem str _ ⟨hstr, hne⟩ hneq fuel,
    fun fuel r hr hr0 => ?_, toChar_of_range character⟩
  · obtain ⟨f, rfl⟩ : ∃ f, fuel = f + 1 := ⟨fuel - 1, by omega⟩
    exact strchrLoop_end mem str _ (fun h => h.2 h0) f
  · obtain ⟨f, rfl⟩ : ∃ f, fuel = f + 1 := ⟨fuel - 1, by omega⟩
    exact strchrLoop_found mem str _ ⟨hstr, hne⟩ heq f
  · cases fuel with
    | zero => simp [strchr, strchrLoop] at hr
    | succ f =>
      by_cases hc : str ≠ 0 ∧ mem str ≠ NULL_CHAR
      · by_cases heq : mem str = toChar character
        · rw [strchr, strchrLoop_found mem str _ hc heq f] at hr
          exact (Option.some.inj hr).symm
        · rw [strchr, strchrLoop_stuck mem str _ hc heq (f + 1)] at hr
          exact absurd hr (by simp)
      · rw [strchr, strchrLoop_end mem str _ hc f] at hr
        exact absurd (Option.some.inj hr).symm hr0

theorem strchr_first_byte_only_witness :
    strchr 1 memHello 12 0 = some 0 ∧
    strchr 1 memHello 7 104 = some 7 ∧
    (∀ fuel : Nat, strchr fuel memHello 7 101 = none) ∧
    toChar 104 = 104 :=
  ⟨(strchr_first_byte_only memHello 12 0 (by decide)).1 (by decide) 1 (by decide),
    (strchr_first_byte_only memHello 7 104 (by decide)).2.1 (by decide) (by decide) 1
      (by decide),
    (strchr_first_byte_only memHello 7 101 (by decide)).2.2.1 (by decide) (by decide),
    (strchr_first_byte_only memHello 7 104 (by decide)).2.2.2.2 (by decide) (by decide)⟩

/-! ## Memory after a copy, and the scan of strcat -/

theorem copied_frame (mem : Mem) (d : Nat) (l : List Int) (q : Nat)
    (hq : q < d ∨ d + l.length < q) :
    write (writeBytes mem d l) (d + l.length) NULL_CHAR q = mem q := by
  rw [write_other _ _ _ _ (by omega), writeBytes_frame l mem d q (by omega)]

theorem copied_at (mem : Mem) (d : Nat) (l : List Int) (i : Nat) (hi : i < l.length) :
    write (writeBytes mem d l) (d + l.length) NULL_CHAR (d + i) = l.getD i 0 := by
  rw [write_other _ _ _ _ (by omega), writeBytes_at l mem d i hi]

theorem copied_end (mem : Mem) (d : Nat) (l : List Int) :
    write (writeBytes mem d l) (d + l.length) NULL_CHAR (d + l.length) = NULL_CHAR :=
  write_same _ _ _

theorem IsCStr_congr (mem mem' : Mem) (l : List Int) (p : Nat) (h : IsCStr mem p l)
    (hsame : ∀ i ≤ l.length, mem' (p + i) = mem (p + i)) : IsCStr mem' p l := by
  refine IsCStr_of_bytes mem' l p (fun i hi => ?_) (IsCStr_ne_null mem l p h) ?_
  · rw [hsame i (Nat.le_of_lt hi), (IsCStr_at mem l p i h hi).1]
  · rw [hsame l.length (Nat.le_refl _), IsCStr_terminator mem l p h]

theorem strcpy_eq (mem : Mem) (d s : Nat) (l : List Int) (fuel : Nat) (hs : s ≠ 0)
    (hl : IsCStr mem s l) (hdisj : ∀ i < l.length, ∀ j ≤ l.length, d + i ≠ s + j)
    (hf : l.length < fuel) :
    strcpy fuel mem d s = some (write (writeBytes mem d l) (d + l.length) NULL_CHAR, d) := by
  simp only [strcpy, strcpyLoop_eq l mem d s fuel hs hl hdisj hf]

theorem strncpy_eq (mem : Mem) (d s num : Nat) (hdisj : ∀ i < num, ∀ j < num, d + i ≠ s + j) :
    strncpy mem d s num
      = (write (writeBytes mem d (readBytes mem s num)) (d + (readBytes mem s num).length)
          NULL_CHAR, d) := by
  simp only [strncpy, strncpyLoop_eq num mem d s hdisj, readBytes_length]

theorem scanToEnd_eq (l : List Int) :
    ∀ (mem : Mem) (p fuel : Nat), p ≠ 0 → IsCStr mem p l → l.length < fuel →
      scanToEnd fuel mem p = some (p + l.length + 1) := by
  induction l with
  | nil =>
    intro mem p fuel hp hl hf
    obtain ⟨f, rfl⟩ : ∃ f, fuel = f + 1 := ⟨fuel - 1, by omega⟩
    have h0 : mem p = NULL_CHAR := hl
    rw [scanToEnd, if_pos hp, if_neg (by simp [h0])]
    rfl
  | cons c cs ih =>
    intro mem p fuel hp hl hf
    simp only [List.length_cons] at hf
    obtain ⟨f, rfl⟩ : ∃ f, fuel = f + 1 := ⟨fuel - 1, by omega⟩
    have hne : mem p ≠ NULL_CHAR := by rw [hl.1]; exact hl.2.1
    rw [scanToEnd, if_pos hp, if_pos hne, ih mem (p + 1) f (Nat.succ_ne_zero _) hl.2.2 (by omega),
      List.length_cons, show p + 1 + cs.length + 1 = p + (cs.length + 1) + 1 by omega]

theorem strcat_eq (mem : Mem) (destination source : Nat) (d s : List Int) (fuel : Nat)
    (hdest : destination ≠ 0) (hd : IsCStr mem destination d) (hfd : d.length < fuel)
    (hsrc : source ≠ 0) (hs : IsCStr mem source s) (hfs : s.length < fuel)
    (hdisj : ∀ i ≤ d.length + s.length + 1, ∀ j ≤ s.length, destination + i ≠ source + j) :
    strcat fuel mem destination source
      = some (write (writeBytes mem (destination + d.length + 1) s)
          (destination + d.length + 1 + s.length) NULL_CHAR, destination + d.length + 1) := by
  simp only [strcat, scanToEnd_eq d mem destination fuel hdest hd hfd]
  exact strcpy_eq mem (destination + d.length + 1) source s fuel hsrc hs
    (fun i hi j hj => by have := hdisj (d.length + 1 + i) (by omega) j hj; omega) hfs

theorem strncat_eq (mem : Mem) (destination source : Nat) (d : List Int) (num fuel : Nat)
    (hdest : destination ≠ 0) (hd : IsCStr mem destination d) (hfd : d.length < fuel)
    (hdisj : ∀ i ≤ d.length + num + 1, ∀ j < num, destination + i ≠ source + j) :
    strncat fuel mem destination source num
      = some (write (writeBytes mem (destination + d.length + 1) (readBytes mem source num))
          (destination + d.length + 1 + (readBytes mem source num).length) NULL_CHAR,
          destination + d.length + 1) := by
  simp only [strncat, scanToEnd_eq d mem destination fuel hdest hd hfd]
  rw [strncpy_eq mem (destination + d.length + 1) source num
    (fun i hi j hj => by have := hdisj (d.length + 1 + i) (by omega) j hj; omega)]

/-- C16: for a null-terminated `dest` of length `n`, `strcat` (for a null-terminated `src` of
length `m`, no overlap) returns, leaves the bytes `0..n` of `dest` as they were, terminator
included, and stores the `m` bytes of `src` at offsets `n+1..n+m` and a terminator at
`n+m+1`; the string read from `dest` afterwards is the one before. `strncat` does the same
with the `num` bytes of `src` at offsets `n+1..n+num` and the terminator at `n+num+1`. -/
theorem strcat_strncat_past_terminator (mem : Mem) (destination source : Nat) (d : List Int)
    (fuel : Nat) (hdest : destination ≠ 0) (hd : IsCStr mem destination d)
    (hfd : d.length < fuel) :
    (∀ s : List Int, source ≠ 0 → IsCStr mem source s → s.length < fuel →
      (∀ i ≤ d.length + s.length + 1, ∀ j ≤ s.length, destination + i ≠ source + j) →
      ∃ mem' ret, strcat fuel mem destination source = some (mem', ret) ∧
        (∀ i ≤ d.length, mem' (destination + i) = mem (destination + i)) ∧
        (∀ j < s.length, mem' (destination + d.length + 1 + j) = mem (source + j)) ∧
        mem' (destination + d.length + 1 + s.length) = NULL_CHAR ∧
        IsCStr mem' destination d) ∧
    (∀ num : Nat,
      (∀ i ≤ d.length + num + 1, ∀ j < num, destination + i ≠ source + j) →
      ∃ mem' ret, strncat fuel mem destination source num = some (mem', ret) ∧
        (∀ i ≤ d.length, mem' (destination + i) = mem (destination + i)) ∧
        (∀ j < num, mem' (destination + d.length + 1 + j) = mem (source + j)) ∧
        mem' (destination + d.length + 1 + num) = NULL_CHAR ∧
        IsCStr mem' destination d) := by
  constructor
  · intro s hsrc hs hfs hdisj
    have hframe : ∀ i ≤ d.length,
        write (writeBytes mem (destination + d.length + 1) s)
          (destination + d.length + 1 + s.length) NULL_CHAR (destination + i)
          = mem (destination + i) :=
      fun i hi => copied_frame mem _ s _ (by omega)
    refine ⟨_, _, strcat_eq mem destination source d s fuel hdest hd hfd hsrc hs hfs hdisj,
      hframe, fun j hj => ?_, copied_end mem _ s, IsCStr_congr mem _ d destination hd hframe⟩
    rw [copied_at mem _ s j hj, (IsCStr_at mem s source j hs hj).1]
  · intro num hdisj
    have hlen := readBytes_length mem num source
    have hframe : ∀ i ≤ d.length,
        write (writeBytes mem (destination + d.length + 1) (readBytes mem source num))
          (destination + d.length + 1 + (readBytes mem source num).length) NULL_CHAR
          (destination + i) = mem (destination + i) :=
      fun i hi => copied_frame mem _ _ _ (by omega)
    refine ⟨_, _, strncat_eq mem destination source d num fuel hdest hd hfd hdisj,
      hframe, fun j hj => ?_, ?_, IsCStr_congr mem _ d destination hd hframe⟩
    · rw [copied_at mem _ _ j (by rw [hlen]; exact hj), readBytes_getD mem num source j hj]
    · rw [show destination + d.length + 1 + num
        = destination + d.length + 1 + (readBytes mem source num).length by rw [hlen]]
      exact copied_end mem (destination + d.length + 1) (readBytes mem source num)

theorem strcat_strncat_past_terminator_witness :
    (∃ mem' ret, strcat 4 memFooBar 1 10 = some (mem', ret) ∧
        (∀ i ≤ 3, mem' (1 + i) = memFooBar (1 + i)) ∧
        (∀ j < 3, mem' (1 + 3 + 1 + j) = memFooBar (10 + j)) ∧
        mem' (1 + 3 + 1 + 3) = NULL_CHAR ∧
        IsCStr mem' 1 [102, 111, 111]) ∧
    (∃ mem' ret, strncat 4 memFooBar 1 10 2 = some (mem', ret) ∧
        (∀ i ≤ 3, mem' (1 + i) = memFooBar (1 + i)) ∧
        (∀ j < 2, mem' (1 + 3 + 1 + j) = memFooBar (10 + j)) ∧
        mem' (1 + 3 + 1 + 2) = NULL_CHAR ∧
        IsCStr mem' 1 [102, 111, 111]) :=
  ⟨(strcat_strncat_past_terminator memFooBar 1 10 [102, 111, 111] 4 (by decide) (by decide)
      (by decide)).1 [98, 97, 114] (by decide) (by decide) (by decide) (by decide),
    (strcat_strncat_past_terminator memFooBar 1 10 [102, 111, 111] 4 (by decide) (by decide)
      (by decide)).2 2 (by decide)⟩

/-! ## The order induced by strcmp -/

theorem cmpContents_antisymm (a : List Int) :
    ∀ b : List Int, cmpContents b a = -cmpContents a b := by
  induction a with
  | nil => intro b; cases b <;> rfl
  | cons x xs ih =>
    intro b
    cases b with
    | nil => rfl
    | cons y ys =>
      simp only [cmpContents]
      split_ifs <;> first | omega | rfl | exact ih ys

theorem cmpContents_range (a : List Int) :
    ∀ b : List Int, cmpContents a b = -1 ∨ cmpContents a b = 0 ∨ cmpContents a b = 1 := by
  induction a with
  | nil => intro b; cases b <;> simp [cmpContents]
  | cons x xs ih =>
    intro b
    cases b with
    | nil => simp [cmpContents]
    | cons y ys =>
      simp only [cmpContents]
      split_ifs
      · simp
      · simp
      · exact ih ys

theorem cmpContents_trans (a : List Int) :
    ∀ b c : List Int, cmpContents a b = -1 → cmpContents b c = -1 → cmpContents a c = -1 := by
  induction a with
  | nil => intro b c h1 _; cases b <;> simp [cmpContents] at h1
  | cons x xs ih =>
    intro b c h1 h2
    cases b with
    | nil => cases c <;> simp [cmpContents] at h2
    | cons y ys =>
      cases c with
      | nil => rfl
      | cons z zs =>
        simp only [cmpContents] at h1 h2 ⊢
        split_ifs at h1 h2 ⊢ <;> first | omega | rfl | exact ih ys zs h1 h2

theorem lex_cons_cons_iff (u v : WithTop Int) (l₁ l₂ : List (WithTop Int)) :
    List.Lex (· < ·) (u :: l₁) (v :: l₂) ↔ u < v ∨ (u = v ∧ List.Lex (· < ·) l₁ l₂) := by
  constructor
  · intro h
    cases h with
    | cons h => exact Or.inr ⟨rfl, h⟩
    | rel h => exact Or.inl h
  · rintro (h | ⟨rfl, h⟩)
    · exact List.Lex.rel h
    · exact List.Lex.cons h

theorem lexKey_nil : lexKey [] = [⊤] := rfl

theorem lexKey_cons (x : Int) (xs : List Int) :
    lexKey (x :: xs) = (x : WithTop Int) :: lexKey xs := rfl

theorem cmpContents_lex (a : List Int) :
    ∀ b : List Int, cmpContents a b = -1 ↔ List.Lex (· < ·) (lexKey a) (lexKey b) := by
  induction a with
  | nil =>
    intro b
    cases b with
    | nil => simp [cmpContents, lexKey_nil]
    | cons y ys =>
      rw [lexKey_nil, lexKey_cons, lex_cons_cons_iff]
      simp [cmpContents]
  | cons x xs ih =>
    intro b
    cases b with
    | nil =>
      rw [lexKey_nil, lexKey_cons, lex_cons_cons_iff]
      simp [cmpContents, WithTop.coe_lt_top]
    | cons y ys =>
      rw [lexKey_cons, lexKey_cons, lex_cons_cons_iff, ← ih ys, WithTop.coe_lt_coe,
        WithTop.coe_eq_coe]
      simp only [cmpContents]
      split_ifs with h1 h2
      · constructor
        · intro h; exact absurd h (by decide)
        · rintro (h | ⟨h, -⟩) <;> omega
      · simp [h2]
      · constructor
        · intro h; exact Or.inr ⟨by omega, h⟩
        · rintro (h | ⟨-, h⟩)
          · omega
          · exact h

/-- C17: for null-terminated strings `a` and `b`, `strcmp` returns both ways round, the two
results are opposite (`strcmp(b, a) = -strcmp(a, b)`), and each is one of `-1`, `0`, `+1`. -/
theorem strcmp_antisymmetric (mem : Mem) (str1 str2 : Nat) (a b : List Int) (fuel : Nat)
    (h1 : str1 ≠ 0) (h2 : str2 ≠ 0) (ha : IsCStr mem str1 a) (hb : IsCStr mem str2 b)
    (hf : min a.length b.length < fuel) :
    ∃ r : Int, strcmp fuel mem str1 str2 = some r ∧ strcmp fuel mem str2 str1 = some (-r) ∧
      (r = -1 ∨ r = 0 ∨ r = 1) := by
  refine ⟨cmpContents a b, strcmp_eq_cmpContents mem a b str1 str2 fuel h1 h2 ha hb hf, ?_,
    cmpContents_range a b⟩
  rw [strcmp_eq_cmpContents mem b a str2 str1 fuel h2 h1 hb ha (by rw [Nat.min_comm]; exact hf),
    cmpContents_antisymm a b]

theorem strcmp_antisymmetric_witness :
    strcmp 4 memAbcAbcd 1 5 = some 1 ∧ strcmp 4 memAbcAbcd 5 1 = some (-1) ∧
    ∃ r : Int, strcmp 4 memAbcAbcd 1 5 = some r ∧ strcmp 4 memAbcAbcd 5 1 = some (-r) ∧
      (r = -1 ∨ r = 0 ∨ r = 1) :=
  ⟨by decide, by decide,
    strcmp_antisymmetric memAbcAbcd 1 5 [97, 98, 99] [97, 98, 99, 100] 4 (by decide) (by decide)
      (by decide) (by decide) (by decide)⟩

/-- C20: on null-terminated strings `a`, `b`, `c`, `strcmp` returns on each pair; if
`strcmp(a, b) = -1` and `strcmp(b, c) = -1` then `strcmp(a, c) = -1`; if `strcmp(a, b) = 0` then
`strcmp(a, c) = strcmp(b, c)`; and `strcmp(a, b)` is `-1`, `0` or `+1` according as the bytes of
`a` up to its terminator come before, equal, or come after those of `b` in the lexicographic
order in which the terminator is above every other byte. -/
theorem strcmp_total_order (mem : Mem) (pa pb pc : Nat) (a b c : List Int) (fuel : Nat)
    (hpa : pa ≠ 0) (hpb : pb ≠ 0) (hpc : pc ≠ 0)
    (ha : IsCStr mem pa a) (hb : IsCStr mem pb b) (hc : IsCStr mem pc c)
    (hfa : a.length < fuel) (hfb : b.length < fuel) :
    ∃ rab rbc rac : Int,
      strcmp fuel mem pa pb = some rab ∧ strcmp fuel mem pb pc = some rbc ∧
      strcmp fuel mem pa pc = some rac ∧
      (rab = -1 → rbc = -1 → rac = -1) ∧
      (rab = 0 → rac = rbc) ∧
      (rab = -1 ↔ List.Lex (· < ·) (lexKey a) (lexKey b)) ∧
      (rab = 0 ↔ lexKey a = lexKey b) ∧
      (rab = 1 ↔ List.Lex (· < ·) (lexKey b) (lexKey a)) := by
  refine ⟨cmpContents a b, cmpContents b c, cmpContents a c,
    strcmp_eq_cmpContents mem a b pa pb fuel hpa hpb ha hb (by omega),
    strcmp_eq_cmpContents mem b c pb pc fuel hpb hpc hb hc (by omega),
    strcmp_eq_cmpContents mem a c pa pc fuel hpa hpc ha hc (by omega),
    cmpContents_trans a b c, fun h0 => ?_, cmpContents_lex a b, ?_, ?_⟩
  · rw [(cmpContents_eq_zero_iff a b).mp h0]
  · rw [cmpContents_eq_zero_iff a b]
    constructor
    · rintro rfl; rfl
    · intro h
      have h' := List.append_inj_left' h rfl
      exact List.map_injective_iff.mpr (fun x y hxy => WithTop.coe_injective hxy) h'
  · rw [← cmpContents_lex b a, cmpContents_antisymm a b]
    constructor <;> intro h <;> omega

theorem strcmp_total_order_witness :
    strcmp 4 memAbcAbdB 1 5 = some (-1) ∧ strcmp 4 memAbcAbdB 5 9 = some (-1) ∧
    strcmp 4 memAbcAbdB 1 9 = some (-1) ∧
    ∃ rab rbc rac : Int,
      strcmp 4 memAbcAbdB 1 5 = some rab ∧ strcmp 4 memAbcAbdB 5 9 = some rbc ∧
      strcmp 4 memAbcAbdB 1 9 = some rac ∧
      (rab = -1 → rbc = -1 → rac = -1) ∧
      (rab = 0 → rac = rbc) ∧
      (rab = -1 ↔ List.Lex (· < ·) (lexKey [97, 98, 99]) (lexKey [97, 98, 100])) ∧
      (rab = 0 ↔ lexKey [97, 98, 99] = lexKey [97, 98, 100]) ∧
      (rab = 1 ↔ List.Lex (· < ·) (lexKey [97, 98, 100]) (lexKey [97, 98, 99])) :=
  ⟨by decide, by decide, by decide,
    strcmp_total_order memAbcAbdB 1 5 9 [97, 98, 99] [97, 98, 100] [98] 4 (by decide)
      (by decide) (by decide) (by decide) (by decide) (by decide) (by decide) (by decide)⟩

/-! ## The string left by strncpy, and the frame of strcpy -/

theorem strncpy_mem_at (mem : Mem) (d s num i : Nat)
    (hdisj : ∀ i < num, ∀ j < num, d + i ≠ s + j) (hi : i < num) :
    (strncpy mem d s num).1 (d + i) = mem (s + i) := by
  rw [strncpy_eq mem d s num hdisj]
  show write _ _ NULL_CHAR (d + i) = mem (s + i)
  rw [copied_at mem d _ i (by rw [readBytes_length]; exact hi), readBytes_getD mem num s i hi]

theorem strncpy_mem_end (mem : Mem) (d s num : Nat) :
    (strncpy mem d s num).1 (d + num) = NULL_CHAR := by
  have hloop : ∀ (k : Nat) (m : Mem) (d s : Nat), (strncpyLoop k m d s).2 = d + k := by
    intro k
    induction k with
    | zero => intro m d s; rfl
    | succ k ih => intro m d s; rw [strncpyLoop, ih]; omega
  simp only [strncpy, hloop]
  exact write_same _ _ _

theorem getD_take (l : List Int) (n i : Nat) (hi : i < n) : (l.take n).getD i 0 = l.getD i 0 := by
  rw [List.getD_eq_getElem?_getD, List.getD_eq_getElem?_getD, List.getElem?_take_of_lt hi]

/-- C18: for a null-terminated source `s` of length `m` and a destination whose `num + 1`
bytes do not overlap the `num` source bytes, the null-terminated string at the destination
after `strncpy` is the first `min(num, m)` bytes of `s`: `s` itself when `num ≥ m`. -/
theorem strncpy_string_is_prefix (mem : Mem) (destination source : Nat) (s : List Int)
    (num : Nat) (hs : IsCStr mem source s)
    (hdisj : ∀ i ≤ num, ∀ j < num, destination + i ≠ source + j) :
    IsCStr (strncpy mem destination source num).1 destination (s.take num) ∧
    (s.take num).length = min num s.length ∧
    (s.length ≤ num → s.take num = s) := by
  have hd : ∀ i < num, ∀ j < num, destination + i ≠ source + j :=
    fun i hi j hj => hdisj i (Nat.le_of_lt hi) j hj
  have hlen : (s.take num).length = min num s.length := List.length_take num s
  refine ⟨IsCStr_of_bytes _ (s.take num) destination (fun i hi => ?_) (fun x hx => ?_) ?_, hlen,
    fun h => List.take_of_length_le h⟩
  · have hin : i < num := by omega
    have his : i < s.length := by omega
    rw [strncpy_mem_at mem destination source num i hd hin, getD_take s num i hin,
      (IsCStr_at mem s source i hs his).1]
  · exact IsCStr_ne_null mem s source hs x (List.mem_of_mem_take hx)
  · rw [hlen]
    rcases Nat.lt_or_ge s.length num with hlt | hge
    · rw [Nat.min_eq_right (Nat.le_of_lt hlt),
        strncpy_mem_at mem destination source num s.length hd hlt,
        IsCStr_terminator mem s source hs]
    · rw [Nat.min_eq_left hge]
      exact strncpy_mem_end mem destination source num

theorem strncpy_string_is_prefix_witness :
    (IsCStr (strncpy memHelloShort 1 7 3).1 1 [104, 101, 108] ∧
      ([104, 101, 108, 108, 111] : List Int).take 3 = [104, 101, 108]) ∧
    (IsCStr (strncpy memHelloShort 1 7 3).1 1 (([104, 101, 108, 108, 111] : List Int).take 3) ∧
      (([104, 101, 108, 108, 111] : List Int).take 3).length = min 3 5 ∧
      (5 ≤ 3 → ([104, 101, 108, 108, 111] : List Int).take 3 = [104, 101, 108, 108, 111])) :=
  ⟨by decide,
    strncpy_string_is_prefix memHelloShort 1 7 [104, 101, 108, 108, 111] 3 (by decide)
      (by decide)⟩

/-- C19: for a null-terminated source `s` of length `n` and a destination whose `n + 1` bytes
do not overlap it, `strcpy` returns and changes no byte outside the destination offsets
`0..n`: every destination byte at an offset greater than `n` and every byte of the source
holds the value it had before. -/
theorem strcpy_writes_only_destination (mem : Mem) (destination source : Nat) (s : List Int)
    (fuel : Nat) (hsrc : source ≠ 0) (hs : IsCStr mem source s)
    (hdisj : ∀ i ≤ s.length, ∀ j ≤ s.length, destination + i ≠ source + j)
    (hf : s.length < fuel) :
    ∃ mem', strcpy fuel mem destination source = some (mem', destination) ∧
      (∀ i, s.length < i → mem' (destination + i) = mem (destination + i)) ∧
      (∀ q, (q < destination ∨ destination + s.length < q) → mem' q = mem q) ∧
      (∀ j ≤ s.length, mem' (source + j) = mem (source + j)) ∧
      IsCStr mem' source s := by
  have hsame : ∀ j ≤ s.length,
      write (writeBytes mem destination s) (destination + s.length) NULL_CHAR (source + j)
        = mem (source + j) := fun j hj => by
    have hne : ∀ i ≤ s.length, source + j ≠ destination + i :=
      fun i hi h => hdisj i hi j hj h.symm
    rw [write_other _ _ _ _ (hne s.length (Nat.le_refl _))]
    by_cases hlt : source + j < destination
    · exact writeBytes_frame s mem destination _ (Or.inl hlt)
    · by_cases hge : destination + s.length ≤ source + j
      · exact writeBytes_frame s mem destination _ (Or.inr hge)
      · exact absurd (show source + j = destination + (source + j - destination) by omega)
          (hne (source + j - destination) (by omega))
  exact ⟨_, strcpy_eq mem destination source s fuel hsrc hs
      (fun i hi j hj => hdisj i (Nat.le_of_lt hi) j hj) hf,
    fun i hi => copied_frame mem destination s _ (by omega),
    fun q hq => copied_frame mem destination s q hq, hsame,
    IsCStr_congr mem _ s source hs hsame⟩

theorem strcpy_writes_only_destination_witness :
    (strcpy 6 memHelloWide 1 9).map (fun r => readBytes r.1 0 15)
      = some [0, 104, 101, 108, 108, 111, 0, 8, 8, 104, 101, 108, 108, 111, 0] ∧
    ∃ mem', strcpy 6 memHelloWide 1 9 = some (mem', 1) ∧
      (∀ i, 5 < i → mem' (1 + i) = memHelloWide (1 + i)) ∧
      (∀ q, (q < 1 ∨ 1 + 5 < q) → mem' q = memHelloWide q) ∧
      (∀ j ≤ 5, mem' (9 + j) = memHelloWide (9 + j)) ∧
      IsCStr mem' 9 [104, 101, 108, 108, 111] :=
  ⟨by decide,
    strcpy_writes_only_destination memHelloWide 1 9 [104, 101, 108, 108, 111] 6 (by decide)
      (by decide) (by decide) (by decide)⟩

end strings
namespace memory

/-- C12: the two-index `memcpyThreadgroupDevice` loads its source element from device
memory, not from threadgroup memory: on the device buffer `10, 20` used as destination and as
source, with `destIndex = 0` and `sourceIndex = 1`, the buffer becomes `20, 20`, so element 0 of
the source has changed; the threadgroup buffer `30, 40` plays no part, and no content of
threadgroup memory changes the device memory that results. -/
theorem memcpyThreadgroupDevice_source_is_device :
    (memcpyThreadgroupDevice gpuMemExample ⟨0⟩ ⟨0⟩ 0 1).device 0 = 20 ∧
    (memcpyThreadgroupDevice gpuMemExample ⟨0⟩ ⟨0⟩ 0 1).device 1 = 20 ∧
    gpuMemExample.device 0 = 10 ∧
    gpuMemExample.threadgroup 1 = 40 ∧
    (∀ tg : Nat → Int,
      (memcpyThreadgroupDevice { gpuMemExample with threadgroup := tg } ⟨0⟩ ⟨0⟩ 0 1).device
        = (memcpyThreadgroupDevice gpuMemExample ⟨0⟩ ⟨0⟩ 0 1).device) :=
  ⟨by decide, by decide, by decide, by decide, fun _ => rfl⟩

end memory

end metal
